import Mathlib

/-!
Verification of the wavelet-tree core of `wltree` (wltree.go and its generic
integer-key / byte variant).

The sequence is embedded as `List Nat` (byte values, or integer keys).  The
external prefix-code generator is represented by an `assign : Nat → List Bool`
parameter (`'1'` ↦ `true`); the external succinct bit vector is embedded as a
plain `List Bool` with the rank/select contract of the spec (section 6).
The per-node bit vectors produced by the builder pass of `New`/`NewIntKeys`
are reconstructed column-wise by `nodeBits`: the builder at code prefix `P`
receives, in sequence order, one bit from every element whose code properly
extends `P`, namely that code's bit just after `P`.
-/

/-- Failure kinds of `Select` (spec section 7). -/
inductive WErr where
  | unknownSymbol : WErr
  | outOfRange : WErr
deriving DecidableEq

instance : DecidableEq (Except WErr Nat)
  | .ok a, .ok b =>
    match decEq a b with
    | .isTrue h => .isTrue (h ▸ rfl)
    | .isFalse h => .isFalse (fun hc => h (Except.ok.inj hc))
  | .ok _, .error _ => .isFalse (fun hc => Except.noConfusion hc)
  | .error _, .ok _ => .isFalse (fun hc => Except.noConfusion hc)
  | .error e, .error f =>
    match decEq e f with
    | .isTrue h => .isTrue (h ▸ rfl)
    | .isFalse h => .isFalse (fun hc => h (Except.error.inj hc))

/-- External bit-vector contract: number of `true` bits among the first `i`. -/
def rank1 (v : List Bool) (i : Nat) : Nat := (v.take i).count true

/-- External bit-vector contract: number of `false` bits among the first `i`. -/
def rank0 (v : List Bool) (i : Nat) : Nat := (v.take i).count false

/-- Index of the `(r+1)`-th element of `l` satisfying `p`, if it exists. -/
def findNth (p : α → Bool) : List α → Nat → Option Nat
  | [], _ => none
  | a :: l, r =>
    if p a then
      match r with
      | 0 => some 0
      | r' + 1 => (findNth p l r').map (· + 1)
    else
      (findNth p l r).map (· + 1)

/-- Turn an optional position into a `Select` result (missing = OutOfRange). -/
def toSel (o : Option Nat) : Except WErr Nat :=
  match o with
  | some t => .ok t
  | none => .error .outOfRange

/-- External bit-vector contract: position of the `(r+1)`-th `true` bit;
fails when fewer than `r+1` exist. -/
def select1 (v : List Bool) (r : Nat) : Except WErr Nat :=
  toSel (findNth (fun b => b) v r)

/-- External bit-vector contract: position of the `(r+1)`-th `false` bit. -/
def select0 (v : List Bool) (r : Nat) : Except WErr Nat :=
  toSel (findNth (fun b => !b) v r)

/-- The code bit of symbol `a` immediately after code prefix `P`. -/
def bitAt (codes : Nat → List Bool) (P : List Bool) (a : Nat) : Bool :=
  (codes a).getD P.length false

/-- Whether an element with symbol `a` passes through the tree node of code
prefix `P`: in the builder pass of `New`, element `a` touches exactly the
builders `code[:j]` for `j < len(code)`. -/
def routedB (codes : Nat → List Bool) (P : List Bool) (a : Nat) : Bool :=
  decide (P.length < (codes a).length ∧ P <+: codes a)

/-- The bit that element `a` contributes to node `P` (none if not routed). -/
def routeBit (codes : Nat → List Bool) (P : List Bool) (a : Nat) : Option Bool :=
  if routedB codes P a then some (bitAt codes P a) else none

/-- Content of the frozen bit vector of node `P` after the single builder
pass over `s` (bits in sequence order). -/
def nodeBits (codes : Nat → List Bool) (s : List Nat) (P : List Bool) : List Bool :=
  s.filterMap (routeBit codes P)

/-- The `w.codes` table of `New`: the generator's code for symbols occurring
in `s`, and the zero value (empty code) for all others. -/
def mkCodes (assign : Nat → List Bool) (s : List Nat) : Nat → List Bool :=
  fun c => if c ∈ s then assign c else []

/-- The `w.nodes[c]` table of `New`: for each `j < len(code)` (in order), the
frozen bit vector of the node at prefix `code[:j]`. -/
def wtNodes (codes : Nat → List Bool) (s : List Nat) (c : Nat) : List (List Bool) :=
  (List.range (codes c).length).map (fun j => nodeBits codes s ((codes c).take j))

/-- `Wltree.Rank`: empty code returns 0; otherwise thread the position `i`
top-down through the node list with `Rank1`/`Rank0` as the code bit directs. -/
def wtRank (codes : Nat → List Bool) (s : List Nat) (c : Nat) (i : Nat) : Nat :=
  let code := codes c
  if code = [] then 0
  else
    (code.zip (wtNodes codes s c)).foldl
      (fun t p => if p.1 then rank1 p.2 t else rank0 p.2 t) i

/-- The bottom-up loop of `Wltree.Select`: the node list is traversed from
the last (near-leaf) entry back to the first (root), each step applying
`Select1`/`Select0`; a failing step aborts the whole call. -/
def selLoop : List (Bool × List Bool) → Nat → Except WErr Nat
  | [], r => .ok r
  | p :: rest, r =>
    match selLoop rest r with
    | .ok r' => if p.1 then select1 p.2 r' else select0 p.2 r'
    | .error e => .error e

/-- `Wltree.Select` with its failure kinds: empty code is the unknown-symbol
failure, and an overlong rank surfaces as the bit vector's range failure. -/
def wtSelect (codes : Nat → List Bool) (s : List Nat) (c : Nat) (r : Nat) :
    Except WErr Nat :=
  let code := codes c
  if code = [] then .error .unknownSymbol
  else selLoop (code.zip (wtNodes codes s c)) r

/-- Outcome of the Go `Select` distinguishing the failure mechanism: a
returned position, the explicit `panic` executed by `Wltree.Select` on an
empty code, or a failure raised inside the external bit vector's select. -/
inductive SelOutcome where
  | pos : Nat → SelOutcome
  | panicked : SelOutcome
  | extFailed : SelOutcome
deriving DecidableEq

/-- `Wltree.Select` as written in wltree.go: the unknown-symbol branch runs
`panic(...)` (a process-terminating fault), while an out-of-range rank makes
the external bit vector's `Select0`/`Select1` fail. -/
def wtSelectGo (codes : Nat → List Bool) (s : List Nat) (c : Nat) (r : Nat) :
    SelOutcome :=
  if codes c = [] then .panicked
  else
    match selLoop ((codes c).zip (wtNodes codes s c)) r with
    | .ok i => .pos i
    | .error _ => .extFailed

/-- The group of node `P`: the elements of `l`, in order, whose code starts
with `P`. -/
def grp (codes : Nat → List Bool) (P : List Bool) (l : List Nat) : List Nat :=
  l.filter (fun a => decide (P <+: codes a))

/-- The builder size allocated for node `P` in `New`: every distinct symbol
adds its occurrence count once for each of its proper code prefixes. -/
def nodeSize (codes : Nat → List Bool) (s : List Nat) (P : List Bool) : Nat :=
  (s.dedup.map (fun k => if routedB codes P k then s.count k else 0)).sum

/-- The (code bit, node vector) pairs along the path of a code suffix `C`
hanging below the prefix `P`; proof-side view of `code.zip (wtNodes ...)`. -/
def pathNodes (codes : Nat → List Bool) (s : List Nat) :
    List Bool → List Bool → List (Bool × List Bool)
  | [], _ => []
  | b :: C, P => (b, nodeBits codes s P) :: pathNodes codes s C (P ++ [b])

/-- Modelled from the spec's words (claim C4): the node list of symbol `k`
as the bit vectors at depths `0 .. len(code) - 2` only, the last code bit
being implicit.  For comparison with the actual `wtNodes`. -/
def specNodes (codes : Nat → List Bool) (s : List Nat) (k : Nat) : List (List Bool) :=
  (List.range ((codes k).length - 1)).map (fun j => nodeBits codes s ((codes k).take j))

/-- Index in `s` of the `(r+1)`-th occurrence of symbol `c`, if any. -/
def nthOcc (c : Nat) (s : List Nat) (r : Nat) : Option Nat :=
  findNth (fun a => a == c) s r

/-- `byteSlice`: a byte sequence seen through the generic `Interface`
(`Len` = length, `Key i` = integer value of byte `i`). -/
def byteKey (s : List (Fin 256)) : List Nat := s.map Fin.val

/-- The `codes` table copied by `NewBytes` from `NewIntKeys(byteSlice(s))`. -/
def bytesCodes (assign : Nat → List Bool) (s : List (Fin 256)) :
    Fin 256 → List Bool :=
  fun c => mkCodes assign (byteKey s) c.val

/-- The `nodes` table copied by `NewBytes` from `NewIntKeys(byteSlice(s))`. -/
def bytesNodes (assign : Nat → List Bool) (s : List (Fin 256)) :
    Fin 256 → List (List Bool) :=
  fun c => wtNodes (mkCodes assign (byteKey s)) (byteKey s) c.val

/-- `Bytes.Rank`: same top-down loop as `IntKeys.Rank`, over the copied
byte-indexed tables. -/
def bytesRank (assign : Nat → List Bool) (s : List (Fin 256)) (c : Fin 256)
    (i : Nat) : Nat :=
  let code := bytesCodes assign s c
  if code = [] then 0
  else
    (code.zip (bytesNodes assign s c)).foldl
      (fun t p => if p.1 then rank1 p.2 t else rank0 p.2 t) i

/-- `Bytes.Select`: same bottom-up loop as `IntKeys.Select`, over the copied
byte-indexed tables. -/
def bytesSelect (assign : Nat → List Bool) (s : List (Fin 256)) (c : Fin 256)
    (r : Nat) : Except WErr Nat :=
  let code := bytesCodes assign s c
  if code = [] then .error .unknownSymbol
  else selLoop (code.zip (bytesNodes assign s c)) r

/-- The sequence "abracadabra" as byte values. -/
def s1 : List Nat := [97, 98, 114, 97, 99, 97, 100, 97, 98, 114, 97]

/-- A prefix-free code assignment for the symbols of `s1`
(a ↦ 0, b ↦ 100, r ↦ 101, c ↦ 110, d ↦ 111). -/
def assign1 : Nat → List Bool :=
  fun a =>
    if a = 97 then [false]
    else if a = 98 then [true, false, false]
    else if a = 114 then [true, false, true]
    else if a = 99 then [true, true, false]
    else if a = 100 then [true, true, true]
    else []

/-- A two-symbol sequence. -/
def s2 : List Nat := [0, 1]

/-- The code assignment 0 ↦ "0", 1 ↦ "1" for `s2`. -/
def assign2 : Nat → List Bool := fun a => if a = 0 then [false] else [true]

/-- The sequence "aaaa" (a single distinct symbol). -/
def s4 : List Nat := [97, 97, 97, 97]

/-- The degenerate generator output: a zero-length code for every symbol. -/
def assignE : Nat → List Bool := fun _ => []

example : wtRank (mkCodes assign1 s1) s1 97 11 = 5 := by decide
example : wtRank (mkCodes assign1 s1) s1 97 8 - wtRank (mkCodes assign1 s1) s1 97 3 = 3 := by decide
example : wtSelect (mkCodes assign1 s1) s1 97 2 = .ok 5 := by decide
example : wtRank (mkCodes assign1 s1) s1 122 11 = 0 := by decide
example : wtSelect (mkCodes assign1 s1) s1 97 4 = .ok 10 := by decide
example : wtSelect (mkCodes assign1 s1) s1 97 5 = .error .outOfRange := by decide
example : wtSelect (mkCodes assign1 s1) s1 114 1 = .ok 9 := by decide
example : wtRank (mkCodes assign1 s1) s1 100 11 = 1 := by decide

/-! ### Generic facts about `findNth` -/

theorem findNth_cons_neg (p : α → Bool) (a : α) (l : List α) (r : Nat)
    (h : p a = false) :
    findNth p (a :: l) r = (findNth p l r).map (· + 1) := by
  simp only [findNth]
  rw [if_neg (by simp [h])]

theorem findNth_cons_pos_zero (p : α → Bool) (a : α) (l : List α)
    (h : p a = true) : findNth p (a :: l) 0 = some 0 := by
  simp only [findNth]
  rw [if_pos h]

theorem findNth_cons_pos_succ (p : α → Bool) (a : α) (l : List α) (r : Nat)
    (h : p a = true) :
    findNth p (a :: l) (r + 1) = (findNth p l r).map (· + 1) := by
  simp only [findNth]
  rw [if_pos h]

theorem findNth_congr {p q : α → Bool} {l : List α} (h : ∀ a ∈ l, p a = q a) :
    ∀ r, findNth p l r = findNth q l r := by
  induction l with
  | nil => intro r; rfl
  | cons a l ih =>
    intro r
    have ha : p a = q a := h a (List.mem_cons_self a l)
    have h' : ∀ x ∈ l, p x = q x := fun x hx => h x (List.mem_cons_of_mem a hx)
    cases hqa : q a with
    | false => rw [findNth_cons_neg p a l r (ha.trans hqa),
        findNth_cons_neg q a l r hqa, ih h']
    | true =>
      cases r with
      | zero => rw [findNth_cons_pos_zero p a l (ha.trans hqa),
          findNth_cons_pos_zero q a l hqa]
      | succ r' => rw [findNth_cons_pos_succ p a l r' (ha.trans hqa),
          findNth_cons_pos_succ q a l r' hqa, ih h']

theorem findNth_none_iff (p : α → Bool) (l : List α) (r : Nat) :
    findNth p l r = none ↔ l.countP p ≤ r := by
  induction l generalizing r with
  | nil => simp [findNth]
  | cons a l ih =>
    cases h : p a with
    | false =>
      rw [findNth_cons_neg p a l r h, List.countP_cons_of_neg _ _ (by simp [h]),
        Option.map_eq_none', ih]
    | true =>
      cases r with
      | zero =>
        rw [findNth_cons_pos_zero p a l h, List.countP_cons_of_pos _ _ h]
        simp
      | succ r' =>
        rw [findNth_cons_pos_succ p a l r' h, List.countP_cons_of_pos _ _ h,
          Option.map_eq_none', ih]
        omega

theorem findNth_some_iff (p : α → Bool) (d : α) (l : List α) (r u : Nat) :
    findNth p l r = some u ↔
      u < l.length ∧ p (l.getD u d) = true ∧ (l.take u).countP p = r := by
  induction l generalizing r u with
  | nil => simp [findNth]
  | cons a l ih =>
    cases h : p a with
    | true =>
      cases r with
      | zero =>
        rw [findNth_cons_pos_zero p a l h]
        cases u with
        | zero => simp [h]
        | succ u' =>
          constructor
          · intro hc
            exact absurd (Option.some.inj hc) (by omega)
          · rintro ⟨_, _, hc⟩
            rw [List.take_succ_cons, List.countP_cons_of_pos _ _ h] at hc
            omega
      | succ r' =>
        rw [findNth_cons_pos_succ p a l r' h]
        cases u with
        | zero =>
          constructor
          · intro hc
            rw [Option.map_eq_some'] at hc
            obtain ⟨v, _, hv⟩ := hc
            omega
          · rintro ⟨_, _, hc⟩
            rw [List.take_zero, List.countP_nil] at hc
            omega
        | succ u' =>
          rw [Option.map_eq_some']
          constructor
          · rintro ⟨v, hv, hveq⟩
            obtain rfl : v = u' := by omega
            obtain ⟨h1, h2, h3⟩ := (ih _ _).mp hv
            refine ⟨by simpa using h1, h2, ?_⟩
            rw [List.take_succ_cons, List.countP_cons_of_pos _ _ h, h3]
          · rintro ⟨h1, h2, h3⟩
            rw [List.take_succ_cons, List.countP_cons_of_pos _ _ h] at h3
            exact ⟨u', (ih _ _).mpr ⟨by simpa using h1, h2, by omega⟩, rfl⟩
    | false =>
      rw [findNth_cons_neg p a l r h, Option.map_eq_some']
      cases u with
      | zero =>
        constructor
        · rintro ⟨v, _, hv⟩
          omega
        · rintro ⟨_, h2, _⟩
          rw [List.getD_cons_zero] at h2
          rw [h] at h2
          exact absurd h2 (by simp)
      | succ u' =>
        constructor
        · rintro ⟨v, hv, hveq⟩
          obtain rfl : v = u' := by omega
          obtain ⟨h1, h2, h3⟩ := (ih _ _).mp hv
          refine ⟨by simpa using h1, h2, ?_⟩
          rw [List.take_succ_cons, List.countP_cons_of_neg _ _ (by simp [h]), h3]
        · rintro ⟨h1, h2, h3⟩
          rw [List.take_succ_cons, List.countP_cons_of_neg _ _ (by simp [h])] at h3
          exact ⟨u', (ih _ _).mpr ⟨by simpa using h1, h2, h3⟩, rfl⟩

theorem findNth_map (p : β → Bool) (f : α → β) (l : List α) (r : Nat) :
    findNth p (l.map f) r = findNth (fun a => p (f a)) l r := by
  induction l generalizing r with
  | nil => rfl
  | cons a l ih =>
    cases h : p (f a) with
    | false =>
      rw [List.map_cons, findNth_cons_neg p (f a) (l.map f) r h,
        findNth_cons_neg (fun a => p (f a)) a l r h, ih]
    | true =>
      cases r with
      | zero =>
        rw [List.map_cons, findNth_cons_pos_zero p (f a) (l.map f) h,
          findNth_cons_pos_zero (fun a => p (f a)) a l h]
      | succ r' =>
        rw [List.map_cons, findNth_cons_pos_succ p (f a) (l.map f) r' h,
          findNth_cons_pos_succ (fun a => p (f a)) a l r' h, ih]

theorem findNth_filter_comp (p q pq : α → Bool) (hpq : ∀ a, pq a = (p a && q a))
    (l : List α) (r t : Nat) (h : findNth q (l.filter p) r = some t) :
    findNth pq l r = findNth p l t := by
  induction l generalizing r t with
  | nil => simp [findNth] at h
  | cons a l ih =>
    cases hp : p a with
    | true =>
      rw [List.filter_cons_of_pos hp] at h
      cases hq : q a with
      | true =>
        cases r with
        | zero =>
          rw [findNth_cons_pos_zero q a _ hq] at h
          obtain rfl : (0 : Nat) = t := Option.some.inj h
          rw [findNth_cons_pos_zero pq a l (by rw [hpq]; simp [hp, hq]),
            findNth_cons_pos_zero p a l hp]
        | succ r' =>
          rw [findNth_cons_pos_succ q a _ r' hq, Option.map_eq_some'] at h
          obtain ⟨t', ht', rfl⟩ := h
          rw [findNth_cons_pos_succ pq a l r' (by rw [hpq]; simp [hp, hq]),
            findNth_cons_pos_succ p a l t' hp, ih _ _ ht']
      | false =>
        rw [findNth_cons_neg q a _ r hq, Option.map_eq_some'] at h
        obtain ⟨t', ht', rfl⟩ := h
        rw [findNth_cons_neg pq a l r (by rw [hpq]; simp [hq]),
          findNth_cons_pos_succ p a l t' hp, ih _ _ ht']
    | false =>
      rw [List.filter_cons_of_neg (by simp [hp])] at h
      rw [findNth_cons_neg pq a l r (by rw [hpq]; simp [hp]),
        findNth_cons_neg p a l t hp, ih _ _ h]

/-! ### Characterizing one-bit code extensions -/

theorem snoc_pre_iff (P : List Bool) (b : Bool) (C : List Bool) :
    (P ++ [b]) <+: C ↔
      (P <+: C ∧ P.length < C.length ∧ C.getD P.length false = b) := by
  constructor
  · rintro ⟨t, rfl⟩
    refine ⟨⟨[b] ++ t, by simp⟩, by simp, ?_⟩
    rw [List.append_assoc, List.getD_append_right _ _ _ _ (Nat.le_refl _)]
    simp
  · rintro ⟨⟨t, rfl⟩, hlen, hbit⟩
    cases t with
    | nil => simp at hlen
    | cons b' t' =>
      rw [List.getD_append_right _ _ _ _ (Nat.le_refl _)] at hbit
      simp at hbit
      cases hbit
      exact ⟨t', by simp⟩

/-! ### Structure of the per-node bit vectors -/

theorem nodeBits_eq_map (codes : Nat → List Bool) (P : List Bool) (l : List Nat) :
    nodeBits codes l P = (l.filter (routedB codes P)).map (bitAt codes P) := by
  induction l with
  | nil => rfl
  | cons a l ih =>
    cases h : routedB codes P a with
    | true =>
      simp only [nodeBits] at ih ⊢
      rw [List.filterMap_cons_some (by rw [routeBit, if_pos h]),
        List.filter_cons_of_pos h, List.map_cons, ih]
    | false =>
      simp only [nodeBits] at ih ⊢
      rw [List.filterMap_cons_none (by rw [routeBit, if_neg (by simp [h])]),
        List.filter_cons_of_neg (by simp [h]), ih]

theorem pre_proper_len (codes : Nat → List Bool) (P : List Bool) (a : Nat)
    (hpre : P <+: codes a) (hne : codes a ≠ P) : P.length < (codes a).length := by
  obtain ⟨t, ht⟩ := hpre
  cases t with
  | nil => exact absurd (by rw [← ht, List.append_nil]) hne
  | cons x xs =>
    rw [← ht, List.length_append, List.length_cons]
    omega

theorem routed_eq_pre (codes : Nat → List Bool) (P : List Bool) (m : List Nat)
    (hm : ∀ a ∈ m, codes a ≠ P) :
    m.filter (routedB codes P) = grp codes P m := by
  rw [grp]
  apply List.filter_congr
  intro a ha
  rw [routedB]
  cases hd : decide (P <+: codes a) with
  | false =>
    rw [decide_eq_false_iff_not] at hd
    simp [hd]
  | true =>
    have hpre := of_decide_eq_true hd
    have hlen := pre_proper_len codes P a hpre (hm a ha)
    simp [hlen, hpre]

theorem nodeBits_grp (codes : Nat → List Bool) (P : List Bool) (m : List Nat)
    (hm : ∀ a ∈ m, codes a ≠ P) :
    nodeBits codes m P = (grp codes P m).map (bitAt codes P) := by
  rw [nodeBits_eq_map, routed_eq_pre codes P m hm]

theorem grp_refine (codes : Nat → List Bool) (P Q : List Bool) (hPQ : P <+: Q)
    (l : List Nat) :
    grp codes Q l = (grp codes P l).filter (fun a => decide (Q <+: codes a)) := by
  simp only [grp, List.filter_filter]
  apply List.filter_congr
  intro a _
  cases hq : decide (Q <+: codes a) with
  | false => simp [hq]
  | true =>
    have hp : decide (P <+: codes a) = true :=
      decide_eq_true (hPQ.trans (of_decide_eq_true hq))
    simp [hq, hp]

theorem pre_snoc_decide (codes : Nat → List Bool) (P : List Bool) (b : Bool) (a : Nat)
    (hpre : P <+: codes a) (hne : codes a ≠ P) :
    decide ((P ++ [b]) <+: codes a) = (bitAt codes P a == b) := by
  have hlen := pre_proper_len codes P a hpre hne
  by_cases hd : (P ++ [b]) <+: codes a
  · rw [decide_eq_true hd]
    obtain ⟨_, _, hbit⟩ := (snoc_pre_iff P b (codes a)).mp hd
    rw [bitAt, hbit]
    simp
  · rw [decide_eq_false hd]
    symm
    rw [beq_eq_false_iff_ne]
    intro heq
    exact hd ((snoc_pre_iff P b (codes a)).mpr ⟨hpre, hlen, heq⟩)

/-! ### The top-down Rank traversal -/

theorem rank_step (codes : Nat → List Bool) (s : List Nat) (P : List Bool) (b : Bool)
    (hex : ∀ a ∈ s, codes a ≠ P) (i : Nat) :
    (if b then rank1 (nodeBits codes s P) ((grp codes P (s.take i)).length)
     else rank0 (nodeBits codes s P) ((grp codes P (s.take i)).length)) =
      (grp codes (P ++ [b]) (s.take i)).length := by
  have hmem : ∀ a ∈ s.take i, codes a ≠ P := fun a ha => hex a (List.mem_of_mem_take ha)
  have hsplit : nodeBits codes s P =
      nodeBits codes (s.take i) P ++ nodeBits codes (s.drop i) P := by
    conv_lhs => rw [← List.take_append_drop i s]
    simp only [nodeBits]
    rw [List.filterMap_append]
  have h1 : (nodeBits codes s P).take ((grp codes P (s.take i)).length) =
      (grp codes P (s.take i)).map (bitAt codes P) := by
    rw [hsplit, nodeBits_grp codes P (s.take i) hmem,
      List.take_left' (by rw [List.length_map])]
  have h2 : ∀ bb : Bool, ((grp codes P (s.take i)).map (bitAt codes P)).count bb =
      (grp codes (P ++ [bb]) (s.take i)).length := by
    intro bb
    rw [grp_refine codes P (P ++ [bb]) ⟨[bb], rfl⟩ (s.take i),
      ← List.countP_eq_length_filter, List.count_eq_countP, List.countP_map]
    apply List.countP_congr
    intro a ha
    simp only [grp] at ha
    have ha' := List.mem_filter.mp ha
    have hpre := of_decide_eq_true ha'.2
    have hne := hmem a ha'.1
    exact iff_of_eq (congrArg (· = true) (pre_snoc_decide codes P bb a hpre hne).symm)
  cases b with
  | false =>
    rw [if_neg (by simp)]
    simp only [rank0]
    rw [h1, h2 false]
  | true =>
    rw [if_pos rfl]
    simp only [rank1]
    rw [h1, h2 true]

theorem zip_pathNodes (codes : Nat → List Bool) (s : List Nat) :
    ∀ (C P : List Bool),
      C.zip ((List.range C.length).map (fun j => nodeBits codes s (P ++ C.take j))) =
      pathNodes codes s C P := by
  intro C
  induction C with
  | nil => intro P; rfl
  | cons b C ih =>
    intro P
    rw [pathNodes, List.length_cons, List.range_succ_eq_map, List.map_cons,
      List.map_map, List.zip_cons_cons]
    congr 1
    · show (b, nodeBits codes s (P ++ (b :: C).take 0)) = (b, nodeBits codes s P)
      rw [List.take_zero, List.append_nil]
    · rw [← ih (P ++ [b])]
      congr 1
      apply List.map_congr_left
      intro j _
      show nodeBits codes s (P ++ (b :: C).take (j + 1)) =
        nodeBits codes s ((P ++ [b]) ++ C.take j)
      rw [List.take_succ_cons,
        show P ++ b :: C.take j = (P ++ [b]) ++ C.take j from by rw [List.append_assoc]; rfl]

theorem zip_wtNodes (codes : Nat → List Bool) (s : List Nat) (c : Nat) :
    (codes c).zip (wtNodes codes s c) = pathNodes codes s (codes c) [] := by
  simp only [wtNodes]
  rw [← zip_pathNodes codes s (codes c) []]
  simp only [List.nil_append]

theorem rank_loop (codes : Nat → List Bool) (s : List Nat) (c : Nat)
    (Hpf : ∀ a ∈ s, ∀ b ∈ s, codes a <+: codes b → a = b) (hc : c ∈ s) (i : Nat) :
    ∀ (C P : List Bool), P ++ C = codes c →
      (pathNodes codes s C P).foldl
        (fun t p => if p.1 then rank1 p.2 t else rank0 p.2 t)
        ((grp codes P (s.take i)).length) =
      (grp codes (codes c) (s.take i)).length := by
  intro C
  induction C with
  | nil =>
    intro P hP
    rw [pathNodes, List.foldl_nil]
    have hPc : P = codes c := by simpa using hP
    rw [hPc]
  | cons b C ih =>
    intro P hP
    have hex : ∀ a ∈ s, codes a ≠ P := by
      intro a ha heq
      have hpre : codes a <+: codes c := ⟨b :: C, by rw [heq, hP]⟩
      have hac : a = c := Hpf a ha c hc hpre
      have h2 : P ++ b :: C = P := by rw [hP, ← heq, hac]
      have h3 := congrArg List.length h2
      rw [List.length_append, List.length_cons] at h3
      omega
    rw [pathNodes, List.foldl_cons]
    have hstep := rank_step codes s P b hex i
    simp only [hstep]
    exact ih (P ++ [b]) (by rw [List.append_assoc]; simpa using hP)

theorem wtRank_eq_count (codes : Nat → List Bool) (s : List Nat) (c : Nat)
    (Hpf : ∀ a ∈ s, ∀ b ∈ s, codes a <+: codes b → a = b)
    (hc : c ∈ s) (hcne : codes c ≠ []) (i : Nat) (hi : i ≤ s.length) :
    wtRank codes s c i = (s.take i).count c := by
  simp only [wtRank]
  rw [if_neg hcne, zip_wtNodes codes s c]
  have hbase : (grp codes [] (s.take i)).length = i := by
    rw [grp, List.filter_congr (fun a _ => decide_eq_true ⟨codes a, rfl⟩)]
    rw [List.filter_true, List.length_take]
    omega
  have hloop := rank_loop codes s c Hpf hc i (codes c) [] rfl
  rw [hbase] at hloop
  rw [hloop]
  rw [grp, ← List.countP_eq_length_filter, List.count_eq_countP]
  apply List.countP_congr
  intro a ha
  have has : a ∈ s := List.mem_of_mem_take ha
  by_cases he : a = c
  · subst he
    rw [decide_eq_true ⟨[], List.append_nil _⟩]
    simp
  · have hnp : ¬ (codes c <+: codes a) := fun hp => he (Hpf c hc a has hp).symm
    rw [decide_eq_false hnp]
    simp [he]

/-! ### The bottom-up Select traversal -/

theorem select1_map {α : Type _} (f : α → Bool) (l : List α) (r : Nat) :
    select1 (l.map f) r = toSel (findNth f l r) := by
  rw [select1, findNth_map]

theorem select0_map {α : Type _} (f : α → Bool) (l : List α) (r : Nat) :
    select0 (l.map f) r = toSel (findNth (fun a => !(f a)) l r) := by
  rw [select0, findNth_map]

theorem no_exact_code (codes : Nat → List Bool) (s : List Nat) (c : Nat)
    (Hpf : ∀ a ∈ s, ∀ b ∈ s, codes a <+: codes b → a = b) (hc : c ∈ s)
    (P : List Bool) (b : Bool) (C : List Bool) (hP : P ++ b :: C = codes c) :
    ∀ a ∈ s, codes a ≠ P := by
  intro a ha heq
  have hpre : codes a <+: codes c := ⟨b :: C, by rw [heq, hP]⟩
  have hac : a = c := Hpf a ha c hc hpre
  have h2 : P ++ b :: C = P := by rw [hP, ← heq, hac]
  have h3 := congrArg List.length h2
  rw [List.length_append, List.length_cons] at h3
  omega

theorem sel_loop (codes : Nat → List Bool) (s : List Nat) (c : Nat)
    (Hpf : ∀ a ∈ s, ∀ b ∈ s, codes a <+: codes b → a = b) (hc : c ∈ s) :
    ∀ (C P : List Bool), P ++ C = codes c → C ≠ [] → ∀ r,
      selLoop (pathNodes codes s C P) r =
      toSel (findNth (fun a => decide (codes c <+: codes a)) (grp codes P s) r) := by
  intro C
  induction C with
  | nil => intro P hP hne r; exact absurd rfl hne
  | cons b C ih =>
    intro P hP _ r
    have hex : ∀ a ∈ s, codes a ≠ P := no_exact_code codes s c Hpf hc P b C hP
    have hnode : nodeBits codes s P = (grp codes P s).map (bitAt codes P) :=
      nodeBits_grp codes P s hex
    have hstep : ∀ t, (if b then select1 (nodeBits codes s P) t
        else select0 (nodeBits codes s P) t) =
        toSel (findNth (fun a => decide ((P ++ [b]) <+: codes a)) (grp codes P s) t) := by
      intro t
      cases b with
      | true =>
        rw [if_pos rfl, hnode, select1_map]
        refine congrArg toSel (findNth_congr (fun a ha => ?_) t)
        simp only [grp] at ha
        have ha' := List.mem_filter.mp ha
        have hps := pre_snoc_decide codes P true a (of_decide_eq_true ha'.2) (hex a ha'.1)
        rw [hps]
        simp
      | false =>
        rw [if_neg (by simp), hnode, select0_map]
        refine congrArg toSel (findNth_congr (fun a ha => ?_) t)
        simp only [grp] at ha
        have ha' := List.mem_filter.mp ha
        have hps := pre_snoc_decide codes P false a (of_decide_eq_true ha'.2) (hex a ha'.1)
        rw [hps]
        simp
    cases C with
    | nil =>
      show (if b then select1 (nodeBits codes s P) r else select0 (nodeBits codes s P) r) =
        toSel (findNth (fun a => decide (codes c <+: codes a)) (grp codes P s) r)
      rw [hstep r, ← hP]
    | cons b2 C2 =>
      have hP' : (P ++ [b]) ++ b2 :: C2 = codes c := by
        rw [List.append_assoc]
        simpa using hP
      have hpb : (P ++ [b]) <+: codes c := ⟨b2 :: C2, hP'⟩
      rw [pathNodes, selLoop, ih (P ++ [b]) hP' (by simp) r]
      cases hfn : findNth (fun a => decide (codes c <+: codes a))
          (grp codes (P ++ [b]) s) r with
      | none =>
        show (Except.error WErr.outOfRange : Except WErr Nat) =
          toSel (findNth (fun a => decide (codes c <+: codes a)) (grp codes P s) r)
        have hcount : (grp codes (P ++ [b]) s).countP
            (fun a => decide (codes c <+: codes a)) =
            (grp codes P s).countP (fun a => decide (codes c <+: codes a)) := by
          rw [grp_refine codes P (P ++ [b]) ⟨[b], rfl⟩ s, List.countP_filter]
          apply List.countP_congr
          intro a _
          cases hfu : decide (codes c <+: codes a) with
          | false => simp [hfu]
          | true =>
            have hpba : decide ((P ++ [b]) <+: codes a) = true :=
              decide_eq_true (hpb.trans (of_decide_eq_true hfu))
            simp [hfu, hpba]
        have hnone : findNth (fun a => decide (codes c <+: codes a))
            (grp codes P s) r = none := by
          rw [findNth_none_iff] at hfn ⊢
          omega
        rw [hnone]
        rfl
      | some t =>
        show (if b then select1 (nodeBits codes s P) t else select0 (nodeBits codes s P) t) =
          toSel (findNth (fun a => decide (codes c <+: codes a)) (grp codes P s) r)
        rw [hstep t]
        congr 1
        have hfn' : findNth (fun a => decide (codes c <+: codes a))
            ((grp codes P s).filter (fun a => decide ((P ++ [b]) <+: codes a))) r =
            some t := by
          rw [← grp_refine codes P (P ++ [b]) ⟨[b], rfl⟩ s]
          exact hfn
        have hcomp := findNth_filter_comp (fun a => decide ((P ++ [b]) <+: codes a))
          (fun a => decide (codes c <+: codes a))
          (fun a => decide ((P ++ [b]) <+: codes a) && decide (codes c <+: codes a))
          (fun a => rfl) (grp codes P s) r t hfn'
        rw [← hcomp]
        refine findNth_congr (fun a _ => ?_) r
        cases hfu : decide (codes c <+: codes a) with
        | false => simp [hfu]
        | true =>
          have hpba : decide ((P ++ [b]) <+: codes a) = true :=
            decide_eq_true (hpb.trans (of_decide_eq_true hfu))
          simp [hfu, hpba]

theorem wtSelect_eq_nthOcc (codes : Nat → List Bool) (s : List Nat) (c : Nat)
    (Hpf : ∀ a ∈ s, ∀ b ∈ s, codes a <+: codes b → a = b)
    (hc : c ∈ s) (hcne : codes c ≠ []) (r : Nat) :
    wtSelect codes s c r = toSel (nthOcc c s r) := by
  simp only [wtSelect]
  rw [if_neg hcne, zip_wtNodes codes s c,
    sel_loop codes s c Hpf hc (codes c) [] rfl hcne r]
  congr 1
  have hgrp : grp codes [] s = s := by
    rw [grp, List.filter_congr (fun a _ => decide_eq_true ⟨codes a, rfl⟩),
      List.filter_true]
  rw [hgrp, nthOcc]
  refine findNth_congr (fun a ha => ?_) r
  by_cases he : a = c
  · subst he
    rw [decide_eq_true ⟨[], List.append_nil _⟩]
    simp
  · rw [decide_eq_false (fun hp => he (Hpf c hc a ha hp).symm)]
    simp [he]

/-! ### Occurrence positions and builder sizes -/

theorem nthOcc_some_iff (c : Nat) (s : List Nat) (r u : Nat) :
    nthOcc c s r = some u ↔
      u < s.length ∧ s.getD u 0 = c ∧ (s.take u).count c = r := by
  rw [nthOcc, findNth_some_iff (fun a => a == c) 0 s r u]
  simp [List.count_eq_countP, beq_iff_eq]

theorem nthOcc_none_iff (c : Nat) (s : List Nat) (r : Nat) :
    nthOcc c s r = none ↔ s.count c ≤ r := by
  rw [nthOcc, findNth_none_iff]
  simp [List.count_eq_countP]

theorem sum_map_ite_filter {α : Type _} (p : α → Bool) (f : α → Nat) (d : List α) :
    (d.map (fun k => if p k then f k else 0)).sum = ((d.filter p).map f).sum := by
  induction d with
  | nil => rfl
  | cons a d ih =>
    cases h : p a with
    | true => simp [h, ih]
    | false => simp [h, ih]

theorem nodeBits_length (codes : Nat → List Bool) (s : List Nat) (P : List Bool) :
    (nodeBits codes s P).length = nodeSize codes s P := by
  calc (nodeBits codes s P).length = s.countP (routedB codes P) := by
        rw [nodeBits_eq_map, List.length_map, ← List.countP_eq_length_filter]
    _ = ((s.dedup.filter (routedB codes P)).map fun x => s.count x).sum :=
        (List.sum_map_count_dedup_filter_eq_countP _ s).symm
    _ = nodeSize codes s P := by rw [nodeSize, sum_map_ite_filter]

theorem nodeBits_take_succ (codes : Nat → List Bool) (s : List Nat) (P : List Bool)
    (t : Nat) (ht : t < s.length) (hr : routedB codes P (s.getD t 0) = true) :
    (nodeBits codes (s.take (t + 1)) P).length =
      (nodeBits codes (s.take t) P).length + 1 := by
  have hsp : s.take (t + 1) = s.take t ++ [s.getD t 0] := by
    rw [List.take_succ]
    congr 1
    rw [List.getElem?_eq_getElem ht]
    simp [List.getD_eq_getElem?_getD, List.getElem?_eq_getElem ht]
  rw [hsp]
  simp only [nodeBits]
  rw [List.filterMap_append, List.length_append,
    List.filterMap_cons_some (by rw [routeBit, if_pos hr])]
  rfl

theorem nodeBits_take_le (codes : Nat → List Bool) (s : List Nat) (P : List Bool)
    (t : Nat) : (nodeBits codes (s.take t) P).length ≤ (nodeBits codes s P).length := by
  conv_rhs => rw [← List.take_append_drop t s]
  simp only [nodeBits]
  rw [List.filterMap_append, List.length_append]
  omega

/-! ### Shape of the per-symbol node lists -/

theorem wtNodes_length (codes : Nat → List Bool) (s : List Nat) (k : Nat) :
    (wtNodes codes s k).length = (codes k).length := by
  rw [wtNodes, List.length_map, List.length_range]

theorem wtNodes_getD (codes : Nat → List Bool) (s : List Nat) (k j : Nat)
    (hj : j < (codes k).length) :
    (wtNodes codes s k).getD j [] = nodeBits codes s ((codes k).take j) := by
  rw [wtNodes]
  simp [List.getD_eq_getElem?_getD, List.getElem?_map, List.getElem?_range hj]

theorem nodeBits_pos_iff (codes : Nat → List Bool) (s : List Nat) (P : List Bool) :
    0 < (nodeBits codes s P).length ↔ ∃ a ∈ s, routedB codes P a = true := by
  rw [nodeBits_eq_map, List.length_map, ← List.countP_eq_length_filter,
    List.countP_pos_iff]

/-! ### Small facts about the code table and the degenerate branches -/

theorem mkCodes_not_mem (assign : Nat → List Bool) (s : List Nat) (c : Nat)
    (hc : c ∉ s) : mkCodes assign s c = [] := by
  simp only [mkCodes]
  rw [if_neg hc]

theorem mkCodes_mem (assign : Nat → List Bool) (s : List Nat) (c : Nat)
    (hc : c ∈ s) : mkCodes assign s c = assign c := by
  simp only [mkCodes]
  rw [if_pos hc]

theorem mkCodes_sound (assign : Nat → List Bool) (s : List Nat)
    (Hne : ∀ a ∈ s, assign a ≠ [])
    (Hpf : ∀ a ∈ s, ∀ b ∈ s, assign a <+: assign b → a = b) :
    (∀ a ∈ s, mkCodes assign s a ≠ []) ∧
    (∀ a ∈ s, ∀ b ∈ s, mkCodes assign s a <+: mkCodes assign s b → a = b) := by
  constructor
  · intro a ha
    rw [mkCodes_mem assign s a ha]
    exact Hne a ha
  · intro a ha b hb h
    rw [mkCodes_mem assign s a ha, mkCodes_mem assign s b hb] at h
    exact Hpf a ha b hb h

theorem wtRank_empty_code (codes : Nat → List Bool) (s : List Nat) (c i : Nat)
    (h : codes c = []) : wtRank codes s c i = 0 := by
  simp only [wtRank]
  rw [if_pos h]

theorem wtSelect_empty_code (codes : Nat → List Bool) (s : List Nat) (c r : Nat)
    (h : codes c = []) : wtSelect codes s c r = .error .unknownSymbol := by
  simp only [wtSelect]
  rw [if_pos h]

theorem wtSelectGo_empty_code (codes : Nat → List Bool) (s : List Nat) (c r : Nat)
    (h : codes c = []) : wtSelectGo codes s c r = .panicked := by
  simp only [wtSelectGo]
  rw [if_pos h]

theorem take_succ_getD (s : List Nat) (t : Nat) (ht : t < s.length) :
    s.take (t + 1) = s.take t ++ [s.getD t 0] := by
  rw [List.take_succ]
  congr 1
  rw [List.getElem?_eq_getElem ht]
  simp [List.getD_eq_getElem?_getD, List.getElem?_eq_getElem ht]

/-! ### The claims -/

/-- C1: for every sequence `s`, symbol `c` and `0 ≤ i ≤ len s`, under the
generator's contract (nonempty prefix-free codes for the symbols of `s`),
`Rank(c, i)` is the number of occurrences of `c` in the prefix `s[0:i]`; in
particular `Rank(c, len s)` is the total occurrence count of `c`, and any
symbol not present in `s` yields 0. -/
theorem claim1_rank_counts (assign : Nat → List Bool) (s : List Nat) (c : Nat)
    (Hne : ∀ a ∈ s, assign a ≠ [])
    (Hpf : ∀ a ∈ s, ∀ b ∈ s, assign a <+: assign b → a = b)
    (i : Nat) (hi : i ≤ s.length) :
    wtRank (mkCodes assign s) s c i = (s.take i).count c ∧
    wtRank (mkCodes assign s) s c s.length = s.count c ∧
    (c ∉ s → wtRank (mkCodes assign s) s c i = 0) := by
  by_cases hc : c ∈ s
  · have hm := mkCodes_sound assign s Hne Hpf
    have hcne : mkCodes assign s c ≠ [] := hm.1 c hc
    have h1 := wtRank_eq_count (mkCodes assign s) s c hm.2 hc hcne i hi
    have h2 := wtRank_eq_count (mkCodes assign s) s c hm.2 hc hcne s.length
      (Nat.le_refl _)
    exact ⟨h1, by rw [h2, List.take_length], fun habs => absurd hc habs⟩
  · have hcz := mkCodes_not_mem assign s c hc
    have hz : ∀ j, wtRank (mkCodes assign s) s c j = 0 :=
      fun j => wtRank_empty_code _ _ _ _ hcz
    refine ⟨?_, ?_, fun _ => hz i⟩
    · rw [hz i]
      exact (List.count_eq_zero.mpr (fun hmem => hc (List.mem_of_mem_take hmem))).symm
    · rw [hz s.length]
      exact (List.count_eq_zero.mpr hc).symm

/-- Witness for C1 on s = "abracadabra", c = 'a', i = 8. -/
theorem claim1_rank_counts_witness :
    ((∀ a ∈ s1, assign1 a ≠ []) ∧
     (∀ a ∈ s1, ∀ b ∈ s1, assign1 a <+: assign1 b → a = b) ∧
     8 ≤ s1.length) ∧
    (wtRank (mkCodes assign1 s1) s1 97 8 = (s1.take 8).count 97 ∧
     wtRank (mkCodes assign1 s1) s1 97 s1.length = s1.count 97 ∧
     (97 ∉ s1 → wtRank (mkCodes assign1 s1) s1 97 8 = 0)) :=
  ⟨⟨by decide, by decide, by decide⟩,
   claim1_rank_counts assign1 s1 97 (by decide) (by decide) 8 (by decide)⟩

/-- C2: for a symbol `c` occurring `m > 0` times and any `r < m`, `Select`
succeeds and `Rank(c, Select(c, r)) = r` and `Rank(c, Select(c, r) + 1) =
r + 1`. -/
theorem claim2_rank_select_inverse (assign : Nat → List Bool) (s : List Nat)
    (c r : Nat)
    (Hne : ∀ a ∈ s, assign a ≠ [])
    (Hpf : ∀ a ∈ s, ∀ b ∈ s, assign a <+: assign b → a = b)
    (hc : c ∈ s) (hr : r < s.count c) :
    ∃ i, wtSelect (mkCodes assign s) s c r = .ok i ∧
      wtRank (mkCodes assign s) s c i = r ∧
      wtRank (mkCodes assign s) s c (i + 1) = r + 1 := by
  have hm := mkCodes_sound assign s Hne Hpf
  have hcne := hm.1 c hc
  have hsel := wtSelect_eq_nthOcc (mkCodes assign s) s c hm.2 hc hcne r
  cases hno : nthOcc c s r with
  | none =>
    rw [nthOcc_none_iff] at hno
    omega
  | some u =>
    obtain ⟨hu, hgu, hcu⟩ := (nthOcc_some_iff c s r u).mp hno
    refine ⟨u, ?_, ?_, ?_⟩
    · rw [hsel, hno]
      rfl
    · rw [wtRank_eq_count (mkCodes assign s) s c hm.2 hc hcne u (Nat.le_of_lt hu), hcu]
    · rw [wtRank_eq_count (mkCodes assign s) s c hm.2 hc hcne (u + 1) (by omega),
        take_succ_getD s u hu, List.count_append, hgu, List.count_singleton_self, hcu]

/-- Witness for C2 on s = "abracadabra", c = 'a', r = 2. -/
theorem claim2_rank_select_inverse_witness :
    ((∀ a ∈ s1, assign1 a ≠ []) ∧
     (∀ a ∈ s1, ∀ b ∈ s1, assign1 a <+: assign1 b → a = b) ∧
     97 ∈ s1 ∧ 2 < s1.count 97) ∧
    (∃ i, wtSelect (mkCodes assign1 s1) s1 97 2 = .ok i ∧
      wtRank (mkCodes assign1 s1) s1 97 i = 2 ∧
      wtRank (mkCodes assign1 s1) s1 97 (i + 1) = 3) :=
  ⟨⟨by decide, by decide, by decide, by decide⟩,
   claim2_rank_select_inverse assign1 s1 97 2 (by decide) (by decide) (by decide)
     (by decide)⟩

/-- C3: for every position `i < len s` holding symbol `c`, with `r =
Rank(c, i)`, `Select(c, r)` returns exactly `i`. -/
theorem claim3_select_rank_roundtrip (assign : Nat → List Bool) (s : List Nat)
    (c i : Nat)
    (Hne : ∀ a ∈ s, assign a ≠ [])
    (Hpf : ∀ a ∈ s, ∀ b ∈ s, assign a <+: assign b → a = b)
    (hi : i < s.length) (hgc : s.getD i 0 = c) :
    wtSelect (mkCodes assign s) s c (wtRank (mkCodes assign s) s c i) = .ok i := by
  have hc : c ∈ s := by
    rw [← hgc, List.getD_eq_getElem?_getD, List.getElem?_eq_getElem hi]
    exact List.getElem_mem hi
  have hm := mkCodes_sound assign s Hne Hpf
  have hcne := hm.1 c hc
  rw [wtRank_eq_count (mkCodes assign s) s c hm.2 hc hcne i (Nat.le_of_lt hi),
    wtSelect_eq_nthOcc (mkCodes assign s) s c hm.2 hc hcne,
    (nthOcc_some_iff c s _ i).mpr ⟨hi, hgc, rfl⟩]
  rfl

/-- Witness for C3 on s = "abracadabra", i = 5 (an 'a'). -/
theorem claim3_select_rank_roundtrip_witness :
    ((∀ a ∈ s1, assign1 a ≠ []) ∧
     (∀ a ∈ s1, ∀ b ∈ s1, assign1 a <+: assign1 b → a = b) ∧
     5 < s1.length ∧ s1.getD 5 0 = 97) ∧
    wtSelect (mkCodes assign1 s1) s1 97 (wtRank (mkCodes assign1 s1) s1 97 5) =
      .ok 5 :=
  ⟨⟨by decide, by decide, by decide, by decide⟩,
   claim3_select_rank_roundtrip assign1 s1 97 5 (by decide) (by decide) (by decide)
     (by decide)⟩

/-- C6: a symbol absent from the sequence has no assigned code; `Rank`
returns 0 for every position (and never fails, being total), while `Select`
fails with UnknownSymbol for every rank argument. -/
theorem claim6_unknown_symbol (assign : Nat → List Bool) (s : List Nat)
    (c i r : Nat) (hc : c ∉ s) :
    wtRank (mkCodes assign s) s c i = 0 ∧
    wtSelect (mkCodes assign s) s c r = .error .unknownSymbol :=
  ⟨wtRank_empty_code _ _ _ _ (mkCodes_not_mem assign s c hc),
   wtSelect_empty_code _ _ _ _ (mkCodes_not_mem assign s c hc)⟩

/-- Witness for C6 on s = "abracadabra", c = 'z'. -/
theorem claim6_unknown_symbol_witness :
    (122 ∉ s1) ∧
    (wtRank (mkCodes assign1 s1) s1 122 11 = 0 ∧
     wtSelect (mkCodes assign1 s1) s1 122 0 = .error .unknownSymbol) :=
  ⟨by decide, claim6_unknown_symbol assign1 s1 122 11 0 (by decide)⟩

/-- C7: for a present symbol `c` with count `m`, `Select(c, r)` succeeds for
every `r < m` and fails with OutOfRange for every `r ≥ m`. -/
theorem claim7_select_range (assign : Nat → List Bool) (s : List Nat) (c r : Nat)
    (Hne : ∀ a ∈ s, assign a ≠ [])
    (Hpf : ∀ a ∈ s, ∀ b ∈ s, assign a <+: assign b → a = b)
    (hc : c ∈ s) :
    (r < s.count c → ∃ i, wtSelect (mkCodes assign s) s c r = .ok i) ∧
    (s.count c ≤ r → wtSelect (mkCodes assign s) s c r = .error .outOfRange) := by
  have hm := mkCodes_sound assign s Hne Hpf
  have hcne := hm.1 c hc
  have hsel := wtSelect_eq_nthOcc (mkCodes assign s) s c hm.2 hc hcne r
  constructor
  · intro hr
    cases hno : nthOcc c s r with
    | none =>
      rw [nthOcc_none_iff] at hno
      omega
    | some u =>
      refine ⟨u, ?_⟩
      rw [hsel, hno]
      rfl
  · intro hr
    rw [hsel, (nthOcc_none_iff c s r).mpr hr]
    rfl

/-- Witness for C7 on s = "abracadabra", c = 'a' (count 5), at r = 4 and
r = 5. -/
theorem claim7_select_range_witness :
    ((∀ a ∈ s1, assign1 a ≠ []) ∧
     (∀ a ∈ s1, ∀ b ∈ s1, assign1 a <+: assign1 b → a = b) ∧ 97 ∈ s1) ∧
    ((4 < s1.count 97 → ∃ i, wtSelect (mkCodes assign1 s1) s1 97 4 = .ok i) ∧
     (s1.count 97 ≤ 4 → wtSelect (mkCodes assign1 s1) s1 97 4 = .error .outOfRange)) ∧
    ((5 < s1.count 97 → ∃ i, wtSelect (mkCodes assign1 s1) s1 97 5 = .ok i) ∧
     (s1.count 97 ≤ 5 → wtSelect (mkCodes assign1 s1) s1 97 5 = .error .outOfRange)) :=
  ⟨⟨by decide, by decide, by decide⟩,
   claim7_select_range assign1 s1 97 4 (by decide) (by decide) (by decide),
   claim7_select_range assign1 s1 97 5 (by decide) (by decide) (by decide)⟩

/-- Counterexample to C4 as stated: on s = [0, 1] with the optimal codes
0 ↦ "0" and 1 ↦ "1", the recorded node list of symbol 0 holds one bit vector
(depth 0, for the code's single bit), while the spec's claimed list at depths
0 .. len(C)−2 is empty: the last code bit is not implicit in this code. -/
theorem claim4_counterexample :
    (wtNodes (mkCodes assign2 s2) s2 0).length = 1 ∧
    (specNodes (mkCodes assign2 s2) s2 0).length = 0 ∧
    wtNodes (mkCodes assign2 s2) s2 0 ≠ specNodes (mkCodes assign2 s2) s2 0 := by
  decide

/-- C4 (amended): the index records symbol k's node list as the ordered
frozen bit vectors at depths 0 through len(C)−1 — one node per code bit,
with no implicit last bit — each such node being nonempty; and, when every
proper code prefix of a present symbol is also extended by a second distinct
symbol (fullness of the Huffman code), a node exists exactly for the
prefixes shared by at least two distinct present symbols. -/
theorem claim4_nodes_structure (assign : Nat → List Bool) (s : List Nat) (k : Nat)
    (hk : k ∈ s)
    (Hfull : ∀ a ∈ s, ∀ j < (mkCodes assign s a).length, ∃ b ∈ s, b ≠ a ∧
      routedB (mkCodes assign s) ((mkCodes assign s a).take j) b = true) :
    ((wtNodes (mkCodes assign s) s k).length = (mkCodes assign s k).length ∧
     ∀ j, j < (mkCodes assign s k).length →
       (wtNodes (mkCodes assign s) s k).getD j [] =
         nodeBits (mkCodes assign s) s ((mkCodes assign s k).take j) ∧
       0 < (nodeBits (mkCodes assign s) s ((mkCodes assign s k).take j)).length) ∧
    (∀ P : List Bool, 0 < (nodeBits (mkCodes assign s) s P).length ↔
      ∃ a ∈ s, ∃ b ∈ s, a ≠ b ∧ routedB (mkCodes assign s) P a = true ∧
        routedB (mkCodes assign s) P b = true) := by
  set codes := mkCodes assign s with hcodes
  refine ⟨⟨wtNodes_length codes s k, fun j hj => ⟨wtNodes_getD codes s k j hj, ?_⟩⟩, ?_⟩
  · rw [nodeBits_pos_iff]
    refine ⟨k, hk, ?_⟩
    rw [routedB]
    exact decide_eq_true ⟨by rw [List.length_take]; omega,
      ⟨(codes k).drop j, List.take_append_drop j (codes k)⟩⟩
  · intro P
    constructor
    · intro hpos
      obtain ⟨a, ha, hra⟩ := (nodeBits_pos_iff codes s P).mp hpos
      have hra' := of_decide_eq_true hra
      have hPa : P = (codes a).take P.length := List.prefix_iff_eq_take.mp hra'.2
      obtain ⟨b, hb, hba, hrb⟩ := Hfull a ha P.length hra'.1
      refine ⟨a, ha, b, hb, Ne.symm hba, hra, ?_⟩
      rw [hPa]
      exact hrb
    · rintro ⟨a, ha, b, hb, _, hra, _⟩
      exact (nodeBits_pos_iff codes s P).mpr ⟨a, ha, hra⟩

/-- Witness for the amended C4 on s = [0, 1], k = 0. -/
theorem claim4_nodes_structure_witness :
    ((0 ∈ s2) ∧
     (∀ a ∈ s2, ∀ j < (mkCodes assign2 s2 a).length, ∃ b ∈ s2, b ≠ a ∧
       routedB (mkCodes assign2 s2) ((mkCodes assign2 s2 a).take j) b = true)) ∧
    (((wtNodes (mkCodes assign2 s2) s2 0).length = (mkCodes assign2 s2 0).length ∧
      ∀ j, j < (mkCodes assign2 s2 0).length →
        (wtNodes (mkCodes assign2 s2) s2 0).getD j [] =
          nodeBits (mkCodes assign2 s2) s2 ((mkCodes assign2 s2 0).take j) ∧
        0 < (nodeBits (mkCodes assign2 s2) s2 ((mkCodes assign2 s2 0).take j)).length) ∧
     (∀ P : List Bool, 0 < (nodeBits (mkCodes assign2 s2) s2 P).length ↔
       ∃ a ∈ s2, ∃ b ∈ s2, a ≠ b ∧ routedB (mkCodes assign2 s2) P a = true ∧
         routedB (mkCodes assign2 s2) P b = true)) :=
  ⟨⟨by decide, by decide⟩, claim4_nodes_structure assign2 s2 0 (by decide) (by decide)⟩

/-- Counterexample to C5: with the generator assigning a zero-length code on
s = "aaaa", the code answers Rank('a', 4) = 0, not 4, and Select('a', 0) is
the unknown-symbol failure, not position 0: the zero-length-code path answers
as for an absent symbol, not from the sequence length. -/
theorem claim5_counterexample :
    wtRank (mkCodes assignE s4) s4 97 4 = 0 ∧ (0 : Nat) ≠ 4 ∧
    wtSelect (mkCodes assignE s4) s4 97 0 = .error .unknownSymbol := by
  decide

/-- C5 (amended): when the generator yields a zero-length code for a symbol,
Rank and Select do bypass tree traversal, but they answer as for an unknown
symbol: Rank returns 0 for every position and Select fails with
UnknownSymbol for every rank. -/
theorem claim5_zero_code (codes : Nat → List Bool) (s : List Nat) (c i r : Nat)
    (h : codes c = []) :
    wtRank codes s c i = 0 ∧ wtSelect codes s c r = .error .unknownSymbol :=
  ⟨wtRank_empty_code _ _ _ _ h, wtSelect_empty_code _ _ _ _ h⟩

/-- Witness for the amended C5 on s = "aaaa" with the all-empty assignment. -/
theorem claim5_zero_code_witness :
    (mkCodes assignE s4 97 = []) ∧
    (wtRank (mkCodes assignE s4) s4 97 4 = 0 ∧
     wtSelect (mkCodes assignE s4) s4 97 2 = .error .unknownSymbol) :=
  ⟨by decide, claim5_zero_code (mkCodes assignE s4) s4 97 4 2 (by decide)⟩

/-- Counterexample to C8: Select on the unknown symbol 'z' runs the explicit
panic of `Wltree.Select` (wltree.go line 113) — a process-terminating fault,
not a reported fallible result. -/
theorem claim8_counterexample :
    wtSelectGo (mkCodes assign1 s1) s1 122 0 = .panicked := by
  decide

theorem wtSelectGo_err (codes : Nat → List Bool) (s : List Nat) (c r : Nat)
    (h : codes c ≠ []) (herr : wtSelect codes s c r = .error .outOfRange) :
    wtSelectGo codes s c r = .extFailed := by
  simp only [wtSelect] at herr
  rw [if_neg h] at herr
  simp only [wtSelectGo]
  rw [if_neg h, herr]

/-- C8 (amended): `Select`'s unknown-symbol condition surfaces as a
process-terminating panic, and its out-of-range condition is a failure
raised inside the external bit vector's select call; neither failure is
returned by the Go function as an explicit error value. -/
theorem claim8_failure_mechanism (assign : Nat → List Bool) (s : List Nat)
    (c c' r r' : Nat)
    (Hne : ∀ a ∈ s, assign a ≠ [])
    (Hpf : ∀ a ∈ s, ∀ b ∈ s, assign a <+: assign b → a = b)
    (hc : c ∈ s) (hc' : c' ∉ s) (hr : s.count c ≤ r) :
    wtSelectGo (mkCodes assign s) s c' r' = .panicked ∧
    wtSelectGo (mkCodes assign s) s c r = .extFailed := by
  constructor
  · exact wtSelectGo_empty_code _ _ _ _ (mkCodes_not_mem assign s c' hc')
  · have hm := mkCodes_sound assign s Hne Hpf
    have hcne := hm.1 c hc
    refine wtSelectGo_err _ _ _ _ hcne ?_
    rw [wtSelect_eq_nthOcc (mkCodes assign s) s c hm.2 hc hcne r,
      (nthOcc_none_iff c s r).mpr hr]
    rfl

/-- Witness for the amended C8 on s = "abracadabra" with c = 'a', c' = 'z'. -/
theorem claim8_failure_mechanism_witness :
    ((∀ a ∈ s1, assign1 a ≠ []) ∧
     (∀ a ∈ s1, ∀ b ∈ s1, assign1 a <+: assign1 b → a = b) ∧
     97 ∈ s1 ∧ 122 ∉ s1 ∧ s1.count 97 ≤ 5) ∧
    (wtSelectGo (mkCodes assign1 s1) s1 122 0 = .panicked ∧
     wtSelectGo (mkCodes assign1 s1) s1 97 5 = .extFailed) :=
  ⟨⟨by decide, by decide, by decide, by decide, by decide⟩,
   claim8_failure_mechanism assign1 s1 97 122 5 0 (by decide) (by decide)
     (by decide) (by decide) (by decide)⟩

/-- C9: the builder pass stays in bounds: the bit vector frozen at node `P`
ends with exactly the allocated size `nodeSize` (the Go `sizes[P]`), and
whenever the pass handles (writes or skips) a bit at node `P` for the
element at position `t`, the running cursor — the number of earlier elements
routed through `P` — is strictly below the allocated size and advances by
exactly one, so every bit position is visited exactly once. -/
theorem claim9_builder_bounds (codes : Nat → List Bool) (s : List Nat)
    (P : List Bool) (t : Nat) (ht : t < s.length)
    (hr : routedB codes P (s.getD t 0) = true) :
    (nodeBits codes s P).length = nodeSize codes s P ∧
    (nodeBits codes (s.take t) P).length < nodeSize codes s P ∧
    (nodeBits codes (s.take (t + 1)) P).length =
      (nodeBits codes (s.take t) P).length + 1 := by
  have hsz := nodeBits_length codes s P
  have hsucc := nodeBits_take_succ codes s P t ht hr
  have hle := nodeBits_take_le codes s P (t + 1)
  exact ⟨hsz, by omega, hsucc⟩

/-- Witness for C9 on s = "abracadabra" at node P = "1", element t = 1 (the
first 'b', whose code starts with '1'). -/
theorem claim9_builder_bounds_witness :
    (1 < s1.length ∧
     routedB (mkCodes assign1 s1) [true] (s1.getD 1 0) = true) ∧
    ((nodeBits (mkCodes assign1 s1) s1 [true]).length =
       nodeSize (mkCodes assign1 s1) s1 [true] ∧
     (nodeBits (mkCodes assign1 s1) (s1.take 1) [true]).length <
       nodeSize (mkCodes assign1 s1) s1 [true] ∧
     (nodeBits (mkCodes assign1 s1) (s1.take 2) [true]).length =
       (nodeBits (mkCodes assign1 s1) (s1.take 1) [true]).length + 1) :=
  ⟨⟨by decide, by decide⟩,
   claim9_builder_bounds (mkCodes assign1 s1) s1 [true] 1 (by decide) (by decide)⟩

/-- C10: the byte-specialized index agrees with the generic integer-key
index: `Bytes.Rank`/`Bytes.Select` on byte `c` equal `IntKeys.Rank`/
`IntKeys.Select` on `int(c)` over `byteSlice(s)`, position for position and
failure for failure. -/
theorem claim10_bytes_refinement (assign : Nat → List Bool) (s : List (Fin 256))
    (c : Fin 256) (i r : Nat) :
    bytesRank assign s c i =
      wtRank (mkCodes assign (byteKey s)) (byteKey s) c.val i ∧
    bytesSelect assign s c r =
      wtSelect (mkCodes assign (byteKey s)) (byteKey s) c.val r :=
  ⟨rfl, rfl⟩
